import Mathlib

/-!
Verification of the computational-geometry toolkit of this repository
(`geometry_algorithms.cpp`) against its natural-language specification.

Modelling conventions (shallow embedding):

* C++ `double` coordinates are modelled by exact rationals `ℚ`; every
  arithmetic comparison of the source (including the fixed tolerance
  `1e-9`, modelled as `1/1000000000`) is translated literally.
* `std::vector<Point>` is modelled by `List Point`.  `std::sort` and
  `std::inplace_merge` are modelled by a stable insertion sort and a
  stable merge; on every concrete input used below the comparators are
  strict weak orders without distinct equivalent elements (or act on
  ranges of at most two elements), so any conforming C++ sort produces
  the same result.
* loops of the source that need not terminate (the Jarvis wrap loop and
  the outer doubling loop of the Chan algorithm) take a fuel parameter and
  return `Option`; `none` models a non-terminating (or, in the Chan march,
  an IEEE-infinity-sentinel) execution.  Fuel does not change the result
  of any execution that terminates within the supplied fuel.
* the square root of the closest-pair and diameter code is eliminated by
  working with squared distances throughout: `min`/`max` commute with
  `Real.sqrt` on nonnegative arguments, `x < sqrt d ↔ (x < 0 ∨ x*x < d)`
  and `|x| < sqrt d ↔ x*x < d` for `d ≥ 0`, so the squared-value model
  determines the C++ value exactly (it is its square root).  The C++
  `numeric_limits<double>::infinity()` accumulator of the closest-pair
  code is modelled by `⊤ : WithTop ℚ`.
-/

namespace Geometry

/-- 2D point with exact rational coordinates, modelling the C++ `Point`
struct of `double`s. -/
structure Point where
  x : ℚ
  y : ℚ
deriving DecidableEq, Repr, Inhabited

/-- Cross product of vectors OA and OB, as in the source: positive for a
counter-clockwise turn, negative for clockwise, 0 if collinear. -/
def cross (O A B : Point) : ℚ :=
  (A.x - O.x) * (B.y - O.y) - (A.y - O.y) * (B.x - O.x)

/-- Squared distance between two points, as in the source. -/
def distSq (A B : Point) : ℚ :=
  (A.x - B.x) * (A.x - B.x) + (A.y - B.y) * (A.y - B.y)

/-- The fixed tolerance `1e-9` of the source. -/
def eps : ℚ := 1 / 1000000000

/-- Stable insertion of a point into a list sorted by the strict
comparator `lt` (used to model `std::sort`). -/
def insertSorted (lt : Point → Point → Bool) (x : Point) : List Point → List Point
  | [] => [x]
  | y :: ys => if lt y x then y :: insertSorted lt x ys else x :: y :: ys

/-- Stable insertion sort with a strict comparator, modelling `std::sort`
(std::sort leaves the relative order of comparator-equivalent elements
unspecified; on the concrete inputs below no two distinct elements are
equivalent, except in ranges of length at most two where the stable order
is the one a conforming sort produces from a false comparison). -/
def sortPts (lt : Point → Point → Bool) : List Point → List Point
  | [] => []
  | x :: xs => insertSorted lt x (sortPts lt xs)

/-! Convex hull, Graham scan (`convexHullGraham`, source lines 29-70). -/

/-- Index of the point with lowest y (ties: lowest x), the pivot search of
the Graham scan. -/
def lowestIndex (pts : List Point) : Nat :=
  (List.range pts.length).foldl (fun low i =>
    let pi := pts.getD i ⟨0, 0⟩
    let pl := pts.getD low ⟨0, 0⟩
    if pi.y < pl.y ∨ (pi.y = pl.y ∧ pi.x < pl.x) then i else low) 0

/-- Model of `swap(pts[0], pts[i])`. -/
def swapFront (pts : List Point) (i : Nat) : List Point :=
  (pts.set 0 (pts.getD i ⟨0, 0⟩)).set i (pts.getD 0 ⟨0, 0⟩)

/-- The polar-angle comparator of the Graham scan: by sign of the cross
product, with the `1e-9` collinearity tolerance falling back to distance
from the pivot. -/
def grahamSortCmp (pivot a b : Point) : Bool :=
  let c := cross pivot a b
  if |c| < eps then distSq pivot a < distSq pivot b else c > 0

/-- The collinear-pruning pass of the Graham scan: while two consecutive
sorted points are `eps`-collinear with the pivot, skip the earlier one
(keeping the last point of each collinear chain). -/
def filterChain (pivot : Point) : List Point → List Point
  | [] => []
  | [p] => [p]
  | p :: q :: rest =>
    if |cross pivot p q| < eps then filterChain pivot (q :: rest)
    else p :: filterChain pivot (q :: rest)

/-- One step of the Graham stack scan (the stack is kept reversed): pop
while the last two stacked points and `p` make a non-left turn. -/
def scanStep (hullRev : List Point) (p : Point) : List Point :=
  match hullRev with
  | b :: a :: rest => if cross a b p ≤ 0 then scanStep (a :: rest) p else p :: b :: a :: rest
  | _ => p :: hullRev

/-- Convex hull by Graham scan.  Returns the input unchanged when it has
fewer than 3 points. -/
def convexHullGraham (pts : List Point) : List Point :=
  if pts.length < 3 then pts else
  let low := lowestIndex pts
  let pts1 := swapFront pts low
  let pivot := pts1.getD 0 ⟨0, 0⟩
  let sortedTail := sortPts (grahamSortCmp pivot) pts1.tail
  let filtered := pivot :: filterChain pivot sortedTail
  (filtered.foldl scanStep []).reverse

/-! Convex hull, Jarvis march (`convexHullJarvis`, source lines 75-101). -/

/-- Index of the leftmost point (ties: first occurrence). -/
def leftmostIndex (pts : List Point) : Nat :=
  (List.range pts.length).foldl (fun lm i =>
    if (pts.getD i ⟨0, 0⟩).x < (pts.getD lm ⟨0, 0⟩).x then i else lm) 0

/-- The inner selection loop of the Jarvis march: starting from
`q = (p+1) % n`, scan all indices and replace `q` by any candidate that is
more clockwise (`c < 0`), or `eps`-collinear and farther. -/
def jarvisSelect (pts : List Point) (p : Nat) : Nat :=
  let pp := pts.getD p ⟨0, 0⟩
  (List.range pts.length).foldl (fun q i =>
    let c := cross pp (pts.getD q ⟨0, 0⟩) (pts.getD i ⟨0, 0⟩)
    if c < 0 ∨ (|c| < eps ∧ distSq pp (pts.getD i ⟨0, 0⟩) > distSq pp (pts.getD q ⟨0, 0⟩))
    then i else q) ((p + 1) % pts.length)

/-- The do-while wrap loop of the Jarvis march.  The state carries the
point vector, which the loop only reads; `fuel` bounds the number of
iterations, `none` modelling a non-terminating execution of the C++
loop (the march can cycle without returning to the start when the `eps`
tie-break rewrites the path). -/
def jarvisLoop (leftmost : Nat) : Nat → List Point → Nat → List Point →
    List Point × Option (List Point)
  | 0, pts, _, _ => (pts, none)
  | fuel + 1, pts, p, acc =>
    let acc := acc ++ [pts.getD p ⟨0, 0⟩]
    let q := jarvisSelect pts p
    if q = leftmost then (pts, some acc) else jarvisLoop leftmost fuel pts q acc

/-- Convex hull by Jarvis march, together with the final state of the
by-reference argument vector (the C++ function takes `vector<Point>&` but
contains no statement writing to it). -/
def convexHullJarvisSt (fuel : Nat) (pts : List Point) : List Point × Option (List Point) :=
  if pts.length < 3 then (pts, some pts) else
  jarvisLoop (leftmostIndex pts) fuel pts (leftmostIndex pts) []

/-- Convex hull by Jarvis march (return value only). -/
def convexHullJarvis (fuel : Nat) (pts : List Point) : Option (List Point) :=
  (convexHullJarvisSt fuel pts).2

/-! Convex hull, Chan algorithm (`convexHullChan`, source lines 107-167). -/

/-- Lexicographic comparator (x, then y) used by the Chan algorithm. -/
def lexLt (a b : Point) : Bool :=
  a.x < b.x ∨ (a.x = b.x ∧ a.y < b.y)

/-- Model of `int m = 1; while (m*m < n) m *= 2;` (fuel-bounded; fuel `n`
is always sufficient since `m` doubles). -/
def mGrow (n : Nat) : Nat → Nat → Nat
  | 0, m => m
  | fuel + 1, m => if m * m < n then mGrow n fuel (2 * m) else m

/-- Candidate selection of the Chan merge march over all group-hull
vertices.  `none` models the untouched `(inf, inf)` sentinel; the C++
condition tests `nextPoint.x == infinity` before using the cross product,
so the sentinel case never reads the garbage value of `c`. -/
def chanNext (cands : List Point) (pOnHull : Point) : Option Point :=
  cands.foldl (fun acc cand =>
    if cand = pOnHull then acc else
    match acc with
    | none => some cand
    | some np =>
      let c := cross pOnHull np cand
      if c < 0 ∨ (|c| < eps ∧ distSq pOnHull cand > distSq pOnHull np) then some cand
      else acc) none

/-- The inner do-while march of the Chan algorithm.  Returns the pushed
hull, the (possibly already doubled) `m` and the final `hullPoints`
counter.  `none` is the sentinel path where no candidate differs from the
current point, on which the C++ code pushes IEEE infinities (outside the
rational model); the fuel `m + 2` covers every possible execution since
`hullPoints` grows by one per iteration and the loop stops at `m + 1`. -/
def chanMarch (cands : List Point) (startP : Point) : Nat → Nat → Point → Nat →
    List Point → Option (List Point × Nat × Nat)
  | _, 0, _, _, _ => none
  | m, fuel + 1, pOnHull, hp, acc =>
    let acc := acc ++ [pOnHull]
    match chanNext cands pOnHull with
    | none => none
    | some np =>
      let hp := hp + 1
      if hp > m then some (acc, 2 * m, hp)
      else if np = startP then some (acc, m, hp)
      else chanMarch cands startP m fuel np hp acc

/-- One iteration of the outer `while (true)` of the Chan algorithm:
partition the (sorted) points into groups of `m`, compute each group hull
by Graham scan, and run the merge march over all group-hull vertices. -/
def chanRound (pts : List Point) (m : Nat) : Option (List Point × Nat × Nat) :=
  let n := pts.length
  let numGroups := (n + m - 1) / m
  let hulls := (List.range numGroups).map (fun i =>
    convexHullGraham ((pts.drop (i * m)).take m))
  let cands := hulls.flatten
  let startP := cands.foldl (fun s p =>
    if p.y < s.y ∨ (p.y = s.y ∧ p.x < s.x) then p else s) (pts.getD 0 ⟨0, 0⟩)
  chanMarch cands startP m (m + 2) startP 0 []

/-- The outer doubling loop of the Chan algorithm.  Note the C++ source:
after `m *= 2; break;` the test `if (hullPoints <= m) break;` compares
against the already doubled `m`, so a failed march (which stops with
`hullPoints = m+1 ≤ 2*m`) also exits the outer loop, returning the partial
hull instead of retrying. -/
def chanLoop (pts : List Point) : Nat → Nat → Option (List Point)
  | 0, _ => none
  | fuel + 1, m =>
    match chanRound pts m with
    | none => none
    | some (hull, m2, hp) => if hp ≤ m2 then some hull else chanLoop pts fuel m2

/-- Convex hull by the Chan algorithm.  Returns the input unchanged when
it has fewer than 3 points. -/
def convexHullChan (fuel : Nat) (pts : List Point) : Option (List Point) :=
  if pts.length < 3 then some pts else
  let sorted := sortPts lexLt pts
  chanLoop sorted fuel (mGrow pts.length pts.length 1)

/-! Rotating calipers (`convexPolygonDiameter`, source lines 173-190),
in squared form (the C++ function returns `sqrt(maxDistSq)`). -/

/-- The advancing while loop of the rotating calipers: move `j` forward
while the width against edge `(i, ni)` keeps strictly increasing.  Fuel
`hull.length` always suffices: a strictly increasing walk over a fixed
cyclic value sequence cannot make a full turn. -/
def calipersAdvance (hull : List Point) (i ni : Nat) : Nat → Nat → Nat
  | 0, j => j
  | fuel + 1, j =>
    let n := hull.length
    let hi := hull.getD i ⟨0, 0⟩
    let hni := hull.getD ni ⟨0, 0⟩
    if |cross hi hni (hull.getD ((j + 1) % n) ⟨0, 0⟩)| >
        |cross hi hni (hull.getD j ⟨0, 0⟩)|
    then calipersAdvance hull i ni fuel ((j + 1) % n)
    else j

/-- Squared diameter of a convex polygon by rotating calipers; the C++
function returns the square root of this value.  Returns 0 for hulls of
fewer than 2 vertices. -/
def convexPolygonDiameterSq (hull : List Point) : ℚ :=
  let n := hull.length
  if n < 2 then 0 else
  ((List.range n).foldl (fun (st : Nat × ℚ) i =>
    let ni := (i + 1) % n
    let j := calipersAdvance hull i ni n st.1
    let m1 := max st.2 (distSq (hull.getD i ⟨0, 0⟩) (hull.getD j ⟨0, 0⟩))
    (j, max m1 (distSq (hull.getD ni ⟨0, 0⟩) (hull.getD j ⟨0, 0⟩)))) (1, 0)).2

/-! Delaunay triangulation, Bowyer-Watson (`delaunayTriangulation`,
source lines 196-282). -/

/-- Triangle, as in the source. -/
structure Triangle where
  a : Point
  b : Point
  c : Point
deriving DecidableEq, Repr, Inhabited

/-- The signed in-circle determinant of the source (`inCircumcircle`,
lines 200-207), written with the triangle vertices translated by `-p`. -/
def circumDet (t : Triangle) (p : Point) : ℚ :=
  let ax := t.a.x - p.x
  let ay := t.a.y - p.y
  let bx := t.b.x - p.x
  let by2 := t.b.y - p.y
  let cx := t.c.x - p.x
  let cy := t.c.y - p.y
  (ax * ax + ay * ay) * (bx * cy - cx * by2)
    - (bx * bx + by2 * by2) * (ax * cy - cx * ay)
    + (cx * cx + cy * cy) * (ax * by2 - bx * ay)

/-- The in-circle test of the source: `det > 0`.  (This is the standard
strict in-circumcircle test only for counter-clockwise triangles; for
clockwise triangles the sign is inverted.) -/
def inCircumcircle (t : Triangle) (p : Point) : Bool :=
  circumDet t p > 0

/-- The three directed edges of a triangle, in source order. -/
def triEdges (t : Triangle) : List (Point × Point) :=
  [(t.a, t.b), (t.b, t.c), (t.c, t.a)]

/-- Model of the `removeDuplicateEdges` lambda: an edge is removed iff
some other edge of the list is its exact reverse. -/
def removeDuplicateEdges (edges : List (Point × Point)) : List (Point × Point) :=
  (edges.enum.filter (fun ie =>
    edges.enum.all (fun je =>
      je.1 = ie.1 ∨ ¬ (ie.2.1 = je.2.2 ∧ ie.2.2 = je.2.1)))).map (fun ie => ie.2)

/-- One Bowyer-Watson insertion: remove the triangles whose (sign-fixed)
circumcircle test contains `p`, collect their boundary edges, cancel
duplicate edges, and connect `p` to each remaining edge. -/
def dtInsert (tris : List Triangle) (p : Point) : List Triangle :=
  let keep := tris.filter (fun t => ! inCircumcircle t p)
  let bad := tris.filter (fun t => inCircumcircle t p)
  let polygon := removeDuplicateEdges (bad.flatMap triEdges)
  keep ++ polygon.map (fun e => ⟨e.1, e.2, p⟩)

/-- The super-triangle of the source, built from the bounding-box centre
and the box extent `dmax`.  (Note its vertices are in clockwise order.) -/
def superTriangle (minX minY maxX maxY : ℚ) : Triangle :=
  let dmax := max (maxX - minX) (maxY - minY)
  let midx := (minX + maxX) / 2
  let midy := (minY + maxY) / 2
  ⟨⟨midx - 2 * dmax, midy - dmax⟩, ⟨midx, midy + 2 * dmax⟩, ⟨midx + 2 * dmax, midy - dmax⟩⟩

/-- Body of the Bowyer-Watson algorithm for a given bounding box:
pointwise insertion starting from the super-triangle, then removal of
every triangle with a vertex outside the bounding box. -/
def delaunayCore (pts : List Point) (minX minY maxX maxY : ℚ) : List Triangle :=
  (pts.foldl dtInsert [superTriangle minX minY maxX maxY]).filter (fun t => ! decide
    (t.a.x < minX ∨ t.a.x > maxX ∨ t.a.y < minY ∨ t.a.y > maxY ∨
     t.b.x < minX ∨ t.b.x > maxX ∨ t.b.y < minY ∨ t.b.y > maxY ∨
     t.c.x < minX ∨ t.c.x > maxX ∨ t.c.y < minY ∨ t.c.y > maxY))

/-- Delaunay triangulation by Bowyer-Watson, as in the source: bounding
box, super-triangle, pointwise insertion, and final removal of every
triangle with a vertex outside the bounding box. -/
def delaunayTriangulation : List Point → List Triangle
  | [] => []
  | p0 :: rest =>
    if (p0 :: rest).length < 3 then [] else
    let pts := p0 :: rest
    delaunayCore pts
      (pts.foldl (fun m q => min m q.x) p0.x)
      (pts.foldl (fun m q => min m q.y) p0.y)
      (pts.foldl (fun m q => max m q.x) p0.x)
      (pts.foldl (fun m q => max m q.y) p0.y)

/-! Closest pair of points (`closestPairRec` / `closestPair`, source
lines 333-372), in squared form. -/

/-- Comparator `a.y < b.y` of the source. -/
def ltY (a b : Point) : Bool := a.y < b.y

/-- Comparator `a.x < b.x` of the source. -/
def ltX (a b : Point) : Bool := a.x < b.x

/-- Squared distances extended with the infinity accumulator of the C++
code (`⊤` models `numeric_limits<double>::infinity()`). -/
abbrev DSq := WithTop ℚ

/-- Decides `a < sqrt d` for a squared bound `d ≥ 0`: true iff `a < 0` or
`a*a < d` (always true against the infinite bound).  This is the exact
meaning of the C++ comparisons `x < d` where `d` is a real distance and
our model carries `d*d`. -/
def ltSqrt (a : ℚ) (d : DSq) : Bool :=
  decide (a < 0) || decide ((↑(a * a) : DSq) < d)

/-- Minimum squared distance from `p` to the members of a list (the inner
loop of the brute-force base case), `⊤` when the list is empty. -/
def innerMinSq (p : Point) (ps : List Point) : DSq :=
  ps.foldr (fun q acc => min (↑(distSq p q)) acc) ⊤

/-- Brute-force minimum squared distance over all pairs of distinct
positions, as computed by the base case of `closestPairRec` (which takes
the minimum of `sqrt(distSq ..)` over all pairs, starting from infinity).
This is also the specification-side brute force. -/
def bruteMinSq : List Point → DSq
  | [] => ⊤
  | p :: ps => min (innerMinSq p ps) (bruteMinSq ps)

/-- Stable merge by `y`, modelling `std::inplace_merge` with comparator
`a.y < b.y` (an element of the right range is taken only when strictly
smaller). -/
def mergeY : List Point → List Point → List Point
  | [], l2 => l2
  | l1, [] => l1
  | a :: as, b :: bs =>
    if b.y < a.y then b :: mergeY (a :: as) bs else a :: mergeY as (b :: bs)
termination_by l1 l2 => l1.length + l2.length

/-- Inner strip scan: for a fixed `p`, walk the following strip points
while their `y` distance to `p` is below `d`, taking minima of squared
distances. -/
def stripInner (p : Point) (d : DSq) : List Point → DSq → DSq
  | [], acc => acc
  | q :: qs, acc =>
    if ltSqrt (q.y - p.y) d then stripInner p d qs (min acc (↑(distSq p q)))
    else acc

/-- Outer strip scan over all strip points. -/
def stripOuter (d : DSq) : List Point → DSq → DSq
  | [], acc => acc
  | p :: ps, acc => stripOuter d ps (stripInner p d ps acc)

/-- Recursive closest-pair on an x-sorted segment, returning the segment
re-sorted by `y` together with the minimum squared distance.  Mirrors
`closestPairRec`: brute force plus `y`-sort for at most 4 points;
otherwise split at `mid = (left+right)/2`, recurse, merge by `y`, and
scan the vertical strip of half-width `d` around `midX`.  The recursion
is driven by a fuel parameter so that the definition reduces in the
kernel; fuel `l.length` always suffices, since both recursive calls act
on segments at least two elements shorter (so the fuel-0 fallback arm is
never reached from `closestPairSq`).  The combine phase (the statements
after the two recursive calls of the C++ function) is split into
`cpCombine`: take `d` as the minimum of the two sub-results, merge the
two `y`-sorted halves, build the strip of points with `|x - midX| < d`,
and scan it. -/
def cpCombine (r1 r2 : List Point × DSq) (midX : ℚ) : List Point × DSq :=
  let d := min r1.2 r2.2
  let merged := mergeY r1.1 r2.1
  let strip := merged.filter (fun p => ltSqrt |p.x - midX| d)
  (merged, stripOuter d strip d)

/-- Recursive closest-pair driver, mirroring `closestPairRec` of the
source: brute force plus `y`-sort for at most 4 points, otherwise split
at `mid = (left+right)/2` (so the left segment has `(len-1)/2 + 1`
elements), capture `midX` before recursing, recurse on the two halves and
combine. -/
def closestPairRec (fuel : Nat) (l : List Point) : List Point × DSq :=
  if l.length ≤ 4 then (sortPts ltY l, bruteMinSq l)
  else
    match fuel with
    | 0 => (sortPts ltY l, bruteMinSq l)
    | fuel + 1 =>
      let k := (l.length - 1) / 2 + 1
      cpCombine (closestPairRec fuel (l.take k)) (closestPairRec fuel (l.drop k))
        (l.getD (k - 1) ⟨0, 0⟩).x

/-- Closest pair distance, squared: sort by `x` and run the recursion on
the whole range.  The C++ `closestPair` returns the square root of this
value (`⊤` models its infinite result on fewer than 2 points). -/
def closestPairSq (pts : List Point) : DSq :=
  (closestPairRec pts.length (sortPts ltX pts)).2

/-! Specification-side definitions. -/

/-- Spec-side predicate: point `p` lies on or inside the convex polygon
`hull` given in counter-clockwise order, i.e. on or to the left of every
directed edge (edges taken cyclically). -/
def inHull (hull : List Point) (p : Point) : Bool :=
  (hull.zip (hull.rotate 1)).all (fun e => decide (0 ≤ cross e.1 e.2 p))

/-- Spec-side exact strict in-circumcircle predicate, independent of the
orientation convention of the implementation: `p` is strictly inside the
circumcircle of the (nondegenerate) triangle `t` iff the orientation-
corrected in-circle determinant is positive.  The determinant is
expressed through the primitive `cross`/`distSq` operations; a degenerate
triangle (zero orientation) has no circumcircle and contains nothing. -/
def strictlyInCircumcircle (t : Triangle) (p : Point) : Prop :=
  0 < cross t.a t.b t.c *
    (distSq t.a p * cross p t.b t.c - distSq t.b p * cross p t.a t.c
      + distSq t.c p * cross p t.a t.b)

instance (t : Triangle) (p : Point) : Decidable (strictlyInCircumcircle t p) := by
  unfold strictlyInCircumcircle; infer_instance

/-! Concrete inputs used by the claims. -/

/-- The reference point set of the specification (scenario 1, also the
`main()` demo input). -/
def pts8 : List Point :=
  [⟨0, 0⟩, ⟨1, 1⟩, ⟨2, 2⟩, ⟨2, 0⟩, ⟨2, 4⟩, ⟨3, 3⟩, ⟨0, 5⟩, ⟨4, 0⟩]

/-- The unit square: four points in convex position. -/
def sq4 : List Point := [⟨0, 0⟩, ⟨1, 0⟩, ⟨1, 1⟩, ⟨0, 1⟩]

/-- A strictly convex quadrilateral whose vertex `(4, 2)` is within the
`1e-9` collinearity tolerance of the edge from `(4, 0)` to the slightly
perturbed top vertex. -/
def pStar : List Point := [⟨0, 0⟩, ⟨4, 0⟩, ⟨4, 2⟩, ⟨4 - 1 / 5000000000, 4⟩]

/-- Three copies of one point (degenerate Delaunay input). -/
def ptsDup3 : List Point := [⟨1, 2⟩, ⟨1, 2⟩, ⟨1, 2⟩]

/-! Theorems. -/

set_option maxRecDepth 8000 in
/-- C1 counterexample: on the four vertices of the unit square, Graham
scan and Jarvis march return all four vertices, but the Chan algorithm
returns only three — its merge march needs 4 > m = 2 steps, and because
the `if (hullPoints <= m)` exit test reads the already doubled `m`, the
outer loop never retries and the partial hull is returned.  The vertex
sets therefore differ: `(0,1)` is a Graham hull vertex but not a Chan
hull vertex. -/
theorem c1_hulls_counterexample :
    convexHullGraham sq4 = [⟨0, 0⟩, ⟨1, 0⟩, ⟨1, 1⟩, ⟨0, 1⟩] ∧
    convexHullJarvis 8 sq4 = some [⟨0, 0⟩, ⟨1, 0⟩, ⟨1, 1⟩, ⟨0, 1⟩] ∧
    convexHullChan 8 sq4 = some [⟨0, 0⟩, ⟨1, 0⟩, ⟨1, 1⟩] ∧
    (⟨0, 1⟩ : Point) ∈ convexHullGraham sq4 ∧
    (⟨0, 1⟩ : Point) ∉ (convexHullChan 8 sq4).getD [] := by
  with_unfolding_all decide

set_option maxRecDepth 8000 in
/-- C1 amended: on the reference point set of the specification the three
hull algorithms return literally identical vertex lists (in general they
can disagree: the dead retry of the Chan algorithm, and the `1e-9`
tolerance in the Jarvis tie-break, can each drop true hull vertices). -/
theorem c1_hulls_amended :
    convexHullGraham pts8 = [⟨0, 0⟩, ⟨4, 0⟩, ⟨3, 3⟩, ⟨2, 4⟩, ⟨0, 5⟩] ∧
    convexHullJarvis 8 pts8 = some (convexHullGraham pts8) ∧
    convexHullChan 8 pts8 = some (convexHullGraham pts8) := by
  with_unfolding_all decide

set_option maxRecDepth 8000 in
/-- C2 counterexample: the square has 4 ≥ 3 points, its point `(0,1)` is
in the input, yet it lies strictly outside the hull that the Chan
algorithm returns (it is strictly right of the directed edge from `(1,1)`
to `(0,0)` of that hull). -/
theorem c2_insideHull_counterexample :
    3 ≤ sq4.length ∧
    convexHullChan 8 sq4 = some [⟨0, 0⟩, ⟨1, 0⟩, ⟨1, 1⟩] ∧
    (⟨0, 1⟩ : Point) ∈ sq4 ∧
    inHull ((convexHullChan 8 sq4).getD []) ⟨0, 1⟩ = false := by
  with_unfolding_all decide

set_option maxRecDepth 8000 in
/-- C2 amended: on the reference point set, every input point lies on or
inside the hull returned by each of the three algorithms. -/
theorem c2_insideHull_amended :
    (pts8.all fun p => inHull (convexHullGraham pts8) p) = true ∧
    (pts8.all fun p => inHull ((convexHullJarvis 8 pts8).getD []) p) = true ∧
    (pts8.all fun p => inHull ((convexHullChan 8 pts8).getD []) p) = true := by
  with_unfolding_all decide

set_option maxRecDepth 8000 in
/-- C6 counterexample: on a single point, `closestPair` returns the
untouched infinite accumulator (`⊤` models
`numeric_limits<double>::infinity()`), not the fallback 0 claimed by the
specification. -/
theorem c6_closestPair_counterexample :
    closestPairSq [⟨5, 7⟩] = ⊤ ∧ closestPairSq [⟨5, 7⟩] ≠ ((0 : ℚ) : DSq) := by
  with_unfolding_all decide

/-- C6 amended: each hull algorithm echoes an input of fewer than 3
points unchanged (for any fuel), and the closest-pair on fewer than 2
points returns the infinite accumulator (never an error, but not 0). -/
theorem c6_degenerate_amended :
    (∀ (fuel : Nat) (pts : List Point), pts.length < 3 →
      convexHullGraham pts = pts ∧ convexHullJarvis fuel pts = some pts ∧
        convexHullChan fuel pts = some pts) ∧
    (∀ pts : List Point, pts.length < 2 → closestPairSq pts = ⊤) := by
  constructor
  · intro fuel pts h
    refine ⟨?_, ?_, ?_⟩
    · simp [convexHullGraham, if_pos h]
    · simp [convexHullJarvis, convexHullJarvisSt, if_pos h]
    · simp [convexHullChan, if_pos h]
  · intro pts h
    match pts with
    | [] => rfl
    | [p] =>
      simp [closestPairSq, sortPts, insertSorted, closestPairRec, bruteMinSq, innerMinSq]

/-- C6 witness: the amended claim applied to the one-point input. -/
theorem c6_degenerate_amended_witness :
    convexHullGraham [⟨5, 7⟩] = [⟨5, 7⟩] ∧ closestPairSq [⟨5, 7⟩] = ⊤ :=
  ⟨(c6_degenerate_amended.1 8 [⟨5, 7⟩] (by decide)).1,
   c6_degenerate_amended.2 [⟨5, 7⟩] (by decide)⟩

set_option maxRecDepth 8000 in
/-- C7 counterexample: `(2,0)` belongs to the scenario-1 input and to the
vertex set claimed by the specification, but not to the hull computed by
the Graham scan (it is collinear on the bottom edge and pruned). -/
theorem c7_scenario1_counterexample :
    (⟨2, 0⟩ : Point) ∈ pts8 ∧ (⟨2, 0⟩ : Point) ∉ convexHullGraham pts8 := by
  with_unfolding_all decide

set_option maxRecDepth 8000 in
/-- C7 amended: on the scenario-1 input the Graham scan returns exactly
the five vertices `(0,0), (4,0), (3,3), (2,4), (0,5)`, counter-clockwise
starting at the lowest point `(0,0)`; the collinear point `(2,0)` is
pruned. -/
theorem c7_scenario1_amended :
    convexHullGraham pts8 = [⟨0, 0⟩, ⟨4, 0⟩, ⟨3, 3⟩, ⟨2, 4⟩, ⟨0, 5⟩] := by
  with_unfolding_all decide

set_option maxRecDepth 8000 in
/-- C8 counterexample: the Graham hull of the unit square is the square
itself, but re-running the Chan algorithm on that hull returns a strict
subset of its vertices (the dead-retry flaw of the Chan march), so
recomputing a hull of an already computed hull does not always return the
same hull. -/
theorem c8_idempotence_counterexample :
    convexHullGraham sq4 = sq4 ∧
    convexHullChan 8 (convexHullGraham sq4) = some [⟨0, 0⟩, ⟨1, 0⟩, ⟨1, 1⟩] ∧
    (⟨0, 1⟩ : Point) ∈ convexHullGraham sq4 ∧
    (⟨0, 1⟩ : Point) ∉ (convexHullChan 8 (convexHullGraham sq4)).getD [] := by
  with_unfolding_all decide

set_option maxRecDepth 8000 in
/-- C8 amended: on the reference point set, recomputation is stable:
Graham of the Graham hull, Jarvis of the Graham hull, Jarvis of the
Jarvis hull and Graham of the Jarvis hull all return the same hull
again. -/
theorem c8_idempotence_amended :
    convexHullGraham (convexHullGraham pts8) = convexHullGraham pts8 ∧
    convexHullJarvis 8 (convexHullGraham pts8) = some (convexHullGraham pts8) ∧
    convexHullJarvis 8 ((convexHullJarvis 8 pts8).getD []) = convexHullJarvis 8 pts8 ∧
    convexHullGraham ((convexHullJarvis 8 pts8).getD []) = (convexHullJarvis 8 pts8).getD [] := by
  with_unfolding_all decide

/-- Helper: the Jarvis wrap loop threads the point vector through
unchanged (no iteration writes to it). -/
theorem jarvisLoop_fst (lm : Nat) :
    ∀ (fuel : Nat) (pts : List Point) (p : Nat) (acc : List Point),
      (jarvisLoop lm fuel pts p acc).1 = pts := by
  intro fuel
  induction fuel with
  | zero => intro pts p acc; rfl
  | succ n ih =>
    intro pts p acc
    simp only [jarvisLoop]
    split
    · rfl
    · exact ih pts _ _

/-- C9: although the C++ `convexHullJarvis` takes its point vector by
mutable reference, it never modifies it: the state component of the model
equals the input for every input and fuel. -/
theorem c9_jarvis_frame (fuel : Nat) (pts : List Point) :
    (convexHullJarvisSt fuel pts).1 = pts := by
  unfold convexHullJarvisSt
  split
  · rfl
  · exact jarvisLoop_fst _ fuel pts _ _

/-- C10: on fewer than 3 points the Delaunay triangulation returns the
empty triangle list. -/
theorem c10_delaunay_degenerate (pts : List Point) (h : pts.length < 3) :
    delaunayTriangulation pts = [] := by
  match pts with
  | [] => rfl
  | p0 :: rest =>
    simp only [delaunayTriangulation]
    rw [if_pos h]

/-- C10 witness: the degenerate-input theorem applied to a two-point
input. -/
theorem c10_delaunay_degenerate_witness :
    delaunayTriangulation [⟨0, 0⟩, ⟨3, 1⟩] = [] :=
  c10_delaunay_degenerate [⟨0, 0⟩, ⟨3, 1⟩] (by decide)

/-- Helper: a left fold of `min` over a key is at most its initial
value. -/
theorem foldl_min_le_init (f : Point → ℚ) :
    ∀ (l : List Point) (init : ℚ), l.foldl (fun m q => min m (f q)) init ≤ init := by
  intro l
  induction l with
  | nil => intro init; exact le_refl _
  | cons a t ih =>
    intro init
    exact le_trans (ih (min init (f a))) (min_le_left _ _)

/-- Helper: a left fold of `min` over a key is at most the key of every
member. -/
theorem foldl_min_le_mem (f : Point → ℚ) :
    ∀ (l : List Point) (init : ℚ) (p : Point), p ∈ l →
      l.foldl (fun m q => min m (f q)) init ≤ f p := by
  intro l
  induction l with
  | nil => intro init p hp; cases hp
  | cons a t ih =>
    intro init p hp
    rcases List.mem_cons.1 hp with h | h
    · subst h
      exact le_trans (foldl_min_le_init f t (min init (f p))) (min_le_right _ _)
    · exact ih (min init (f a)) p h

/-- Helper: a left fold of `max` over a key is at least its initial
value. -/
theorem le_foldl_max_init (f : Point → ℚ) :
    ∀ (l : List Point) (init : ℚ), init ≤ l.foldl (fun m q => max m (f q)) init := by
  intro l
  induction l with
  | nil => intro init; exact le_refl _
  | cons a t ih =>
    intro init
    exact le_trans (le_max_left _ _) (ih (max init (f a)))

/-- Helper: a left fold of `max` over a key is at least the key of every
member. -/
theorem le_foldl_max_mem (f : Point → ℚ) :
    ∀ (l : List Point) (init : ℚ) (p : Point), p ∈ l →
      f p ≤ l.foldl (fun m q => max m (f q)) init := by
  intro l
  induction l with
  | nil => intro init p hp; cases hp
  | cons a t ih =>
    intro init p hp
    rcases List.mem_cons.1 hp with h | h
    · subst h
      exact le_trans (le_max_right _ _) (le_foldl_max_init f t (max init (f p)))
    · exact ih (max init (f a)) p h

/-- Helper: the in-circle determinant of the super-triangle is nonpositive
at every point of the bounding box (the super-triangle is clockwise, and
box points are strictly inside its circumcircle when the box is
nondegenerate). -/
theorem quadE_nonpos (d u v : ℚ) (hd0 : 0 ≤ d) (hu1 : u ≤ d / 2) (hu2 : -(d / 2) ≤ u)
    (hv1 : v ≤ d / 2) (hv2 : -(d / 2) ≤ v) :
    3 * u ^ 2 + 3 * v ^ 2 + d * v - 14 * d ^ 2 ≤ 0 := by
  nlinarith [mul_nonneg (by linarith : (0:ℚ) ≤ d / 2 - u) (by linarith : (0:ℚ) ≤ d / 2 + u),
             mul_nonneg (by linarith : (0:ℚ) ≤ d / 2 - v) (by linarith : (0:ℚ) ≤ d / 2 + v),
             mul_le_mul_of_nonneg_left hv1 hd0, sq_nonneg d]

theorem superTri_det_nonpos (minX minY maxX maxY px py : ℚ)
    (h1 : minX ≤ px) (h2 : px ≤ maxX) (h3 : minY ≤ py) (h4 : py ≤ maxY) :
    circumDet (superTriangle minX minY maxX maxY) ⟨px, py⟩ ≤ 0 := by
  have hdx : maxX - minX ≤ max (maxX - minX) (maxY - minY) := le_max_left _ _
  have hdy : maxY - minY ≤ max (maxX - minX) (maxY - minY) := le_max_right _ _
  have hd0 : 0 ≤ max (maxX - minX) (maxY - minY) := le_trans (by linarith) hdx
  have key : circumDet (superTriangle minX minY maxX maxY) ⟨px, py⟩ =
      4 * (max (maxX - minX) (maxY - minY)) ^ 2 *
        (3 * (px - (minX + maxX) / 2) ^ 2 + 3 * (py - (minY + maxY) / 2) ^ 2
          + (max (maxX - minX) (maxY - minY)) * (py - (minY + maxY) / 2)
          - 14 * (max (maxX - minX) (maxY - minY)) ^ 2) := by
    simp only [superTriangle, circumDet]
    ring
  rw [key]
  refine mul_nonpos_of_nonneg_of_nonpos (by positivity) ?_
  exact quadE_nonpos _ _ _ hd0 (by linarith) (by linarith) (by linarith) (by linarith)

/-- Helper: the spec-side in-circle expression equals the implementation
determinant (cofactor expansion of the same 3x3 determinant). -/
theorem specDet_eq_circumDet (t : Triangle) (p : Point) :
    distSq t.a p * cross p t.b t.c - distSq t.b p * cross p t.a t.c
      + distSq t.c p * cross p t.a t.b = circumDet t p := by
  simp only [circumDet, cross, distSq]
  ring

/-- Helper: inserting a point whose in-circle test fails on the only
triangle leaves the triangulation unchanged. -/
theorem dtInsert_noop (T : Triangle) (p : Point) (h : inCircumcircle T p = false) :
    dtInsert [T] p = [T] := by
  simp [dtInsert, removeDuplicateEdges, h]

/-- Helper: the insertion fold keeps `[T]` when no point passes the
in-circle test against `T`. -/
theorem foldl_dtInsert_noop (T : Triangle) :
    ∀ (l : List Point), (∀ p ∈ l, inCircumcircle T p = false) →
      l.foldl dtInsert [T] = [T] := by
  intro l
  induction l with
  | nil => intro _; rfl
  | cons a t ih =>
    intro h
    have ha : inCircumcircle T a = false := h a (List.mem_cons_self a t)
    show List.foldl dtInsert (dtInsert [T] a) t = [T]
    rw [dtInsert_noop T a ha]
    exact ih (fun p hp => h p (List.mem_cons_of_mem a hp))

/-- Helper: on a bounding box that really bounds `pts`, every triangle
returned by the Bowyer-Watson core has no point of `pts` strictly inside
its circumcircle.  (With exact arithmetic the clockwise super-triangle
makes the `det > 0` test fail for every inserted point, so the insertion
fold is the identity; a nondegenerate box then loses the super-triangle
to the final filter, and a degenerate box keeps only the degenerate
super-triangle, which has no circumcircle.) -/
theorem delaunayCore_empty_circ (pts : List Point) (minX minY maxX maxY : ℚ)
    (hx : minX ≤ maxX) (hy : minY ≤ maxY)
    (hbox : ∀ p ∈ pts, minX ≤ p.x ∧ p.x ≤ maxX ∧ minY ≤ p.y ∧ p.y ≤ maxY) :
    ∀ t ∈ delaunayCore pts minX minY maxX maxY, ∀ p ∈ pts, ¬ strictlyInCircumcircle t p := by
  intro t ht p hp
  have hcirc : ∀ q ∈ pts, inCircumcircle (superTriangle minX minY maxX maxY) q = false := by
    intro q hq
    have hb := hbox q hq
    have := superTri_det_nonpos minX minY maxX maxY q.x q.y hb.1 hb.2.1 hb.2.2.1 hb.2.2.2
    simp only [inCircumcircle]
    simp only [decide_eq_false_iff_not, not_lt]
    simpa using this
  rw [delaunayCore, foldl_dtInsert_noop _ pts hcirc] at ht
  have hd0 : 0 ≤ max (maxX - minX) (maxY - minY) :=
    le_trans (by linarith) (le_max_left _ _)
  rcases lt_or_eq_of_le hd0 with hdpos | hdzero
  · -- nondegenerate box: the super-triangle is filtered out, so `ht` is absurd
    exfalso
    have hlt : (superTriangle minX minY maxX maxY).a.x < minX := by
      have hdx : maxX - minX ≤ max (maxX - minX) (maxY - minY) := le_max_left _ _
      simp only [superTriangle]
      linarith
    have := List.mem_filter.1 ht
    rcases this with ⟨hmem, hcond⟩
    have ht' : t = superTriangle minX minY maxX maxY := by simpa using hmem
    rw [ht'] at hcond
    simp only [Bool.not_eq_true', decide_eq_false_iff_not] at hcond
    exact hcond (Or.inl hlt)
  · -- degenerate box: the kept super-triangle is a single point, no circumcircle
    have ht' : t = superTriangle minX minY maxX maxY :=
      by simpa using List.mem_of_mem_filter ht
    have hzero : cross t.a t.b t.c = 0 := by
      rw [ht']
      simp only [superTriangle, cross]
      rw [← hdzero]
      ring
    unfold strictlyInCircumcircle
    rw [hzero]
    simp

/-- C3: for every input of at least 3 points, no input point lies
strictly inside the circumcircle of any triangle returned by
`delaunayTriangulation` (judged by the independent orientation-corrected
exact predicate `strictlyInCircumcircle`).  The property holds because
the implementation returns no nondegenerate triangle at all: its
super-triangle is clockwise, which inverts the `det > 0` in-circle test,
so no insertion ever splits a triangle. -/
theorem c3_delaunay_empty_circumcircle (pts : List Point) (h3 : 3 ≤ pts.length)
    (t : Triangle) (ht : t ∈ delaunayTriangulation pts) (p : Point) (hp : p ∈ pts) :
    ¬ strictlyInCircumcircle t p := by
  match pts with
  | [] => cases hp
  | p0 :: rest =>
    simp only [delaunayTriangulation] at ht
    rw [if_neg (by omega)] at ht
    refine delaunayCore_empty_circ (p0 :: rest) _ _ _ _ ?_ ?_ ?_ t ht p hp
    · exact le_trans (foldl_min_le_init (fun q => q.x) _ _)
        (le_foldl_max_init (fun q => q.x) _ _)
    · exact le_trans (foldl_min_le_init (fun q => q.y) _ _)
        (le_foldl_max_init (fun q => q.y) _ _)
    · intro q hq
      exact ⟨foldl_min_le_mem (fun r => r.x) _ _ q hq,
             le_foldl_max_mem (fun r => r.x) _ _ q hq,
             foldl_min_le_mem (fun r => r.y) _ _ q hq,
             le_foldl_max_mem (fun r => r.y) _ _ q hq⟩

/-- C3 witness: the theorem applied to a concrete degenerate input (three
copies of one point), for which the output is the collapsed
super-triangle. -/
theorem c3_delaunay_empty_circumcircle_witness :
    ¬ strictlyInCircumcircle ⟨⟨1, 2⟩, ⟨1, 2⟩, ⟨1, 2⟩⟩ ⟨1, 2⟩ :=
  c3_delaunay_empty_circumcircle ptsDup3 (by decide) ⟨⟨1, 2⟩, ⟨1, 2⟩, ⟨1, 2⟩⟩
    (by with_unfolding_all decide) ⟨1, 2⟩ (by decide)

/-! Lemmas about the sorting and merging primitives, towards the
closest-pair correctness proof. -/

/-- Helper: insertion produces a permutation of the extended list. -/
theorem insertSorted_perm (lt : Point → Point → Bool) (x : Point) :
    ∀ l : List Point, (insertSorted lt x l).Perm (x :: l) := by
  intro l
  induction l with
  | nil => exact List.Perm.refl _
  | cons y ys ih =>
    show (if lt y x then y :: insertSorted lt x ys else x :: y :: ys).Perm _
    by_cases hc : lt y x = true
    · rw [if_pos hc]
      exact (ih.cons y).trans (List.Perm.swap x y ys)
    · rw [if_neg hc]

/-- Helper: insertion sort produces a permutation of its input. -/
theorem sortPts_perm (lt : Point → Point → Bool) :
    ∀ l : List Point, (sortPts lt l).Perm l := by
  intro l
  induction l with
  | nil => exact List.Perm.refl _
  | cons x xs ih => exact (insertSorted_perm lt x (sortPts lt xs)).trans (ih.cons x)

/-- Helper: insertion preserves sortedness with respect to a key `f`, for
any comparator deciding the strict order of `f`. -/
theorem insertSorted_pairwise (f : Point → ℚ) (lt : Point → Point → Bool)
    (hT : ∀ a b, lt a b = true → f a ≤ f b) (hF : ∀ a b, lt a b = false → f b ≤ f a)
    (x : Point) : ∀ l : List Point, l.Pairwise (fun a b => f a ≤ f b) →
      (insertSorted lt x l).Pairwise (fun a b => f a ≤ f b) := by
  intro l
  induction l with
  | nil => intro _; simp [insertSorted]
  | cons y ys ih =>
    intro h
    rw [List.pairwise_cons] at h
    show List.Pairwise _ (if lt y x then y :: insertSorted lt x ys else x :: y :: ys)
    by_cases hc : lt y x = true
    · rw [if_pos hc]
      rw [List.pairwise_cons]
      refine ⟨?_, ih h.2⟩
      intro z hz
      rcases List.mem_cons.1 ((insertSorted_perm lt x ys).mem_iff.mp hz) with rfl | hz2
      · exact hT y z hc
      · exact h.1 z hz2
    · rw [if_neg hc]
      have hc' : lt y x = false := by simpa using hc
      rw [List.pairwise_cons]
      refine ⟨?_, List.pairwise_cons.2 h⟩
      intro z hz
      rcases List.mem_cons.1 hz with rfl | hz2
      · exact hF _ _ hc'
      · exact le_trans (hF y x hc') (h.1 z hz2)

/-- Helper: insertion sort sorts with respect to the key its comparator
decides. -/
theorem sortPts_pairwise (f : Point → ℚ) (lt : Point → Point → Bool)
    (hT : ∀ a b, lt a b = true → f a ≤ f b) (hF : ∀ a b, lt a b = false → f b ≤ f a) :
    ∀ l : List Point, (sortPts lt l).Pairwise (fun a b => f a ≤ f b) := by
  intro l
  induction l with
  | nil => simp [sortPts]
  | cons x xs ih => exact insertSorted_pairwise f lt hT hF x (sortPts lt xs) ih

/-- Helper: the stable merge is a permutation of the concatenation. -/
theorem mergeY_perm : ∀ l1 l2 : List Point, (mergeY l1 l2).Perm (l1 ++ l2) := by
  intro l1
  induction l1 with
  | nil => intro l2; simp [mergeY]
  | cons a as ih1 =>
    intro l2
    induction l2 with
    | nil => simp [mergeY]
    | cons b bs ih2 =>
      simp only [mergeY]
      split
      · exact (ih2.cons b).trans List.perm_middle.symm
      · exact (ih1 (b :: bs)).cons a

/-- Helper: the stable merge of two y-sorted lists is y-sorted. -/
theorem mergeY_pairwise : ∀ l1 l2 : List Point,
    l1.Pairwise (fun a b => a.y ≤ b.y) → l2.Pairwise (fun a b => a.y ≤ b.y) →
    (mergeY l1 l2).Pairwise (fun a b => a.y ≤ b.y) := by
  intro l1
  induction l1 with
  | nil => intro l2 _ h2; simpa [mergeY] using h2
  | cons a as ih1 =>
    intro l2
    induction l2 with
    | nil => intro h1 _; simpa [mergeY] using h1
    | cons b bs ih2 =>
      intro h1 h2
      rw [List.pairwise_cons] at h1 h2
      simp only [mergeY]
      split
      · rename_i hba
        rw [List.pairwise_cons]
        refine ⟨?_, ih2 (List.pairwise_cons.2 h1) h2.2⟩
        intro z hz
        rcases (List.mem_append.1 ((mergeY_perm (a :: as) bs).mem_iff.mp hz)) with hz1 | hz2
        · rcases List.mem_cons.1 hz1 with rfl | hz3
          · exact le_of_lt hba
          · exact le_trans (le_of_lt hba) (h1.1 z hz3)
        · exact h2.1 z hz2
      · rename_i hba
        have hab : a.y ≤ b.y := by simpa using hba
        rw [List.pairwise_cons]
        refine ⟨?_, ih1 (b :: bs) h1.2 (List.pairwise_cons.2 h2)⟩
        intro z hz
        rcases (List.mem_append.1 ((mergeY_perm as (b :: bs)).mem_iff.mp hz)) with hz1 | hz2
        · exact h1.1 z hz1
        · rcases List.mem_cons.1 hz2 with rfl | hz3
          · exact hab
          · exact le_trans hab (h2.1 z hz3)

/-! Lemmas about the brute-force minimum. -/

/-- Helper: symmetry of the squared distance. -/
theorem distSq_comm (a b : Point) : distSq a b = distSq b a := by
  simp only [distSq]; ring

/-- Helper: the inner brute-force minimum is below each distance from
`p`. -/
theorem innerMinSq_le (p : Point) :
    ∀ (ps : List Point) (q : Point), q ∈ ps → innerMinSq p ps ≤ ↑(distSq p q) := by
  intro ps
  induction ps with
  | nil => intro q hq; cases hq
  | cons a t ih =>
    intro q hq
    rcases List.mem_cons.1 hq with rfl | hq2
    · exact min_le_left _ _
    · exact le_trans (min_le_right _ _) (ih q hq2)

/-- Helper: the inner brute-force minimum is infinite or attained. -/
theorem innerMinSq_cases (p : Point) :
    ∀ ps : List Point, innerMinSq p ps = ⊤ ∨ ∃ q ∈ ps, innerMinSq p ps = ↑(distSq p q) := by
  intro ps
  induction ps with
  | nil => left; rfl
  | cons a t ih =>
    have hstep : innerMinSq p (a :: t) = min (↑(distSq p a)) (innerMinSq p t) := rfl
    rcases min_choice (↑(distSq p a) : DSq) (innerMinSq p t) with h | h
    · right; exact ⟨a, List.mem_cons_self a t, by rw [hstep, h]⟩
    · rcases ih with h2 | ⟨q, hq, h2⟩
      · left; rw [hstep, h, h2]
      · right; exact ⟨q, List.mem_cons_of_mem a hq, by rw [hstep, h, h2]⟩

/-- Helper: the brute-force minimum is below the distance of every pair
of distinct positions. -/
theorem bruteMinSq_le_pair :
    ∀ (l : List Point) (p q : Point), ([p, q]).Sublist l → bruteMinSq l ≤ ↑(distSq p q) := by
  intro l
  induction l with
  | nil => intro p q h; cases h
  | cons a t ih =>
    intro p q h
    have hstep : bruteMinSq (a :: t) = min (innerMinSq a t) (bruteMinSq t) := rfl
    cases h with
    | cons _ h2 =>
      exact le_trans (hstep ▸ min_le_right _ _) (ih p q h2)
    | cons₂ _ h2 =>
      have hq : q ∈ t := List.singleton_sublist.1 h2
      exact le_trans (hstep ▸ min_le_left _ _) (innerMinSq_le a t q hq)

/-- Helper: the brute-force minimum is infinite or attained by a pair of
distinct positions. -/
theorem bruteMinSq_cases :
    ∀ l : List Point, bruteMinSq l = ⊤ ∨
      ∃ p q, ([p, q]).Sublist l ∧ bruteMinSq l = ↑(distSq p q) := by
  intro l
  induction l with
  | nil => left; rfl
  | cons a t ih =>
    have hstep : bruteMinSq (a :: t) = min (innerMinSq a t) (bruteMinSq t) := rfl
    rcases min_choice (innerMinSq a t) (bruteMinSq t) with h | h
    · rcases innerMinSq_cases a t with h2 | ⟨q, hq, h2⟩
      · left; rw [hstep, h, h2]
      · right
        exact ⟨a, q, (List.singleton_sublist.2 hq).cons₂ a, by rw [hstep, h, h2]⟩
    · rcases ih with h2 | ⟨p, q, hpq, h2⟩
      · left; rw [hstep, h, h2]
      · right; exact ⟨p, q, hpq.cons a, by rw [hstep, h, h2]⟩

/-- Helper: more points can only shrink the brute-force minimum. -/
theorem bruteMinSq_anti {l1 l2 : List Point} (h : l1.Sublist l2) :
    bruteMinSq l2 ≤ bruteMinSq l1 := by
  rcases bruteMinSq_cases l1 with h1 | ⟨p, q, hpq, h1⟩
  · rw [h1]; exact le_top
  · rw [h1]; exact bruteMinSq_le_pair l2 p q (hpq.trans h)

/-- Helper: a permutation of a two-element list is that list or its
reverse. -/
theorem perm_pair {u : List Point} {p q : Point} (h : u.Perm [p, q]) :
    u = [p, q] ∨ u = [q, p] := by
  match u with
  | [] => exact absurd h.length_eq (by simp)
  | [a] => exact absurd h.length_eq (by simp)
  | a :: b :: c :: w => exact absurd h.length_eq (by simp)
  | [a, b] =>
    have ha : a ∈ [p, q] := h.mem_iff.mp (List.mem_cons_self a [b])
    rcases List.mem_cons.1 ha with rfl | ha2
    · left
      have hb := (h.cons_inv).symm
      rw [List.perm_singleton] at hb
      rw [hb]
    · have hq : a = q := by simpa using ha2
      subst hq
      right
      have h2 : ([a, b]).Perm [a, p] := h.trans (List.Perm.swap a p [])
      have hb := (h2.cons_inv).symm
      rw [List.perm_singleton] at hb
      rw [hb]

/-- Helper: a pair of distinct positions survives a permutation in one of
its two orders. -/
theorem pair_sublist_of_perm {l l2 : List Point} {p q : Point} (hperm : l.Perm l2)
    (hs : ([p, q]).Sublist l) : ([p, q]).Sublist l2 ∨ ([q, p]).Sublist l2 := by
  have h1 : [p, q].Subperm l2 := hs.subperm.trans hperm.subperm
  obtain ⟨u, hu1, hu2⟩ := h1
  rcases perm_pair hu1 with rfl2 | rfl2 <;> rw [rfl2] at hu2
  · exact Or.inl hu2
  · exact Or.inr hu2

/-- Helper: the brute-force minimum only depends on the multiset of
points. -/
theorem bruteMinSq_le_of_perm {l l2 : List Point} (h : l.Perm l2) :
    bruteMinSq l ≤ bruteMinSq l2 := by
  rcases bruteMinSq_cases l2 with h2 | ⟨p, q, hpq, h2⟩
  · rw [h2]; exact le_top
  · rw [h2]
    rcases pair_sublist_of_perm h.symm hpq with hs | hs
    · exact bruteMinSq_le_pair l p q hs
    · rw [distSq_comm]
      exact bruteMinSq_le_pair l q p hs

/-- Helper: the brute-force minimum is invariant under permutation. -/
theorem bruteMinSq_perm {l l2 : List Point} (h : l.Perm l2) :
    bruteMinSq l = bruteMinSq l2 :=
  le_antisymm (bruteMinSq_le_of_perm h) (bruteMinSq_le_of_perm h.symm)

/-! Lemmas about the square-root-free comparison. -/

/-- Helper: every value is below the infinite bound. -/
theorem ltSqrt_top (a : ℚ) : ltSqrt a ⊤ = true := by
  simp only [ltSqrt, Bool.or_eq_true, decide_eq_true_eq]
  exact Or.inr (WithTop.coe_lt_top _)

/-- Helper: `ltSqrt` transfers down along `0 ≤ a ≤ b`. -/
theorem ltSqrt_mono {a b : ℚ} {d : DSq} (h0 : 0 ≤ a) (hab : a ≤ b)
    (hb : ltSqrt b d = true) : ltSqrt a d = true := by
  induction d using WithTop.recTopCoe with
  | top => exact ltSqrt_top a
  | coe s =>
    simp only [ltSqrt, Bool.or_eq_true, decide_eq_true_eq, WithTop.coe_lt_coe] at hb ⊢
    rcases hb with hb | hb
    · exact absurd (lt_of_le_of_lt (le_trans h0 hab) hb) (lt_irrefl 0)
    · right
      calc a * a ≤ b * b := mul_le_mul hab hab h0 (le_trans h0 hab)
        _ < s := hb

/-- Helper: `ltSqrt` holds for any value whose square is bounded by a
squared distance strictly below the bound. -/
theorem ltSqrt_of_lt {x s : ℚ} {d : DSq} (h1 : x * x ≤ s) (h2 : (↑s : DSq) < d) :
    ltSqrt x d = true := by
  induction d using WithTop.recTopCoe with
  | top => exact ltSqrt_top x
  | coe r =>
    rw [WithTop.coe_lt_coe] at h2
    simp only [ltSqrt, Bool.or_eq_true, decide_eq_true_eq, WithTop.coe_lt_coe]
    right
    exact lt_of_le_of_lt h1 h2

/-- Helper: the x-offset square is bounded by the squared distance. -/
theorem sq_dx_le_distSq (a b : Point) : (a.x - b.x) * (a.x - b.x) ≤ distSq a b := by
  simp only [distSq]
  nlinarith [mul_self_nonneg (a.y - b.y)]

/-- Helper: the y-offset square is bounded by the squared distance. -/
theorem sq_dy_le_distSq (a b : Point) : (a.y - b.y) * (a.y - b.y) ≤ distSq a b := by
  simp only [distSq]
  nlinarith [mul_self_nonneg (a.x - b.x)]

/-! Lemmas about the strip scan. -/

/-- Helper: the inner strip scan only lowers its accumulator. -/
theorem stripInner_le_acc (p : Point) (d : DSq) :
    ∀ (l : List Point) (acc : DSq), stripInner p d l acc ≤ acc := by
  intro l
  induction l with
  | nil => intro acc; exact le_refl _
  | cons q qs ih =>
    intro acc
    show (if ltSqrt (q.y - p.y) d then stripInner p d qs (min acc (↑(distSq p q)))
      else acc) ≤ acc
    by_cases hc : ltSqrt (q.y - p.y) d = true
    · rw [if_pos hc]
      exact le_trans (ih _) (min_le_left _ _)
    · rw [if_neg hc]

/-- Helper: the outer strip scan only lowers its accumulator. -/
theorem stripOuter_le_acc (d : DSq) :
    ∀ (l : List Point) (acc : DSq), stripOuter d l acc ≤ acc := by
  intro l
  induction l with
  | nil => intro acc; exact le_refl _
  | cons p ps ih =>
    intro acc
    exact le_trans (ih _) (stripInner_le_acc p d ps acc)

/-- Helper: on a y-sorted strip whose members all lie y-above `p`, the
inner scan reaches any member `b` whose y-gap from `p` passes the bound,
so its result is below `distSq p b`. -/
theorem stripInner_reach (p b : Point) (d : DSq) :
    ∀ (l : List Point) (acc : DSq), ([b]).Sublist l →
      (∀ r ∈ l, p.y ≤ r.y) → l.Pairwise (fun x y => x.y ≤ y.y) →
      ltSqrt (b.y - p.y) d = true →
      stripInner p d l acc ≤ ↑(distSq p b) := by
  intro l
  induction l with
  | nil => intro acc hb; cases hb
  | cons r qs ih =>
    intro acc hb hlow hpw hcond
    cases hb with
    | cons _ h2 =>
      have hrb : r.y ≤ b.y := (List.pairwise_cons.1 hpw).1 b (List.singleton_sublist.1 h2)
      have hrp : p.y ≤ r.y := hlow r (List.mem_cons_self r qs)
      have hcr : ltSqrt (r.y - p.y) d = true :=
        ltSqrt_mono (by linarith) (by linarith) hcond
      show (if ltSqrt (r.y - p.y) d then stripInner p d qs (min acc (↑(distSq p r)))
        else acc) ≤ _
      rw [if_pos hcr]
      exact ih _ h2 (fun z hz => hlow z (List.mem_cons_of_mem r hz))
        (List.pairwise_cons.1 hpw).2 hcond
    | cons₂ _ h2 =>
      show (if ltSqrt (b.y - p.y) d then stripInner p d qs (min acc (↑(distSq p b)))
        else acc) ≤ _
      rw [if_pos hcond]
      exact le_trans (stripInner_le_acc p d qs _) (min_le_right _ _)

/-- Helper: on a y-sorted strip, the outer scan considers any positioned
pair whose y-gap passes the bound, so its result is below that pair
distance. -/
theorem stripOuter_reach (d : DSq) :
    ∀ (l : List Point) (acc : DSq) (a b : Point), ([a, b]).Sublist l →
      l.Pairwise (fun x y => x.y ≤ y.y) →
      ltSqrt (b.y - a.y) d = true →
      stripOuter d l acc ≤ ↑(distSq a b) := by
  intro l
  induction l with
  | nil => intro acc a b h; cases h
  | cons p ps ih =>
    intro acc a b hs hpw hcond
    cases hs with
    | cons _ h2 =>
      exact ih _ a b h2 (List.pairwise_cons.1 hpw).2 hcond
    | cons₂ _ h2 =>
      have h3 : stripInner p d ps acc ≤ ↑(distSq p b) :=
        stripInner_reach p b d ps acc h2 (List.pairwise_cons.1 hpw).1
          (List.pairwise_cons.1 hpw).2 hcond
      exact le_trans (stripOuter_le_acc d ps _) h3

/-- Helper: the inner strip scan stays above any bound below the
accumulator and below all distances from `p`. -/
theorem stripInner_ge (p : Point) (d m : DSq) :
    ∀ (l : List Point) (acc : DSq), (∀ q ∈ l, m ≤ ↑(distSq p q)) → m ≤ acc →
      m ≤ stripInner p d l acc := by
  intro l
  induction l with
  | nil => intro acc _ hacc; exact hacc
  | cons q qs ih =>
    intro acc hlb hacc
    show m ≤ if ltSqrt (q.y - p.y) d then stripInner p d qs (min acc (↑(distSq p q)))
      else acc
    by_cases hc : ltSqrt (q.y - p.y) d = true
    · rw [if_pos hc]
      exact ih _ (fun z hz => hlb z (List.mem_cons_of_mem q hz))
        (le_min hacc (hlb q (List.mem_cons_self q qs)))
    · rw [if_neg hc]; exact hacc

/-- Helper: the outer strip scan stays above any bound below the
accumulator and below all positioned pair distances. -/
theorem stripOuter_ge (d m : DSq) :
    ∀ (l : List Point) (acc : DSq),
      (∀ a b, ([a, b]).Sublist l → m ≤ ↑(distSq a b)) → m ≤ acc →
      m ≤ stripOuter d l acc := by
  intro l
  induction l with
  | nil => intro acc _ hacc; exact hacc
  | cons p ps ih =>
    intro acc hlb hacc
    refine ih _ (fun a b h => hlb a b (h.cons p)) ?_
    refine stripInner_ge p d m ps acc (fun q hq => ?_) hacc
    exact hlb p q ((List.singleton_sublist.2 hq).cons₂ p)

/-! The combine step of the closest-pair recursion. -/

/-- Helper: a positioned pair of an append is within the left part,
within the right part, or split across the two. -/
theorem pair_sublist_append {l1 l2 : List Point} {p q : Point}
    (h : ([p, q]).Sublist (l1 ++ l2)) :
    ([p, q]).Sublist l1 ∨ ([p, q]).Sublist l2 ∨ (p ∈ l1 ∧ q ∈ l2) := by
  rcases List.sublist_append_iff.1 h with ⟨u, w, huw, hu, hw⟩
  match u, huw with
  | [], huw =>
    right; left
    have hw2 : w = [p, q] := by simpa using huw.symm
    rwa [hw2] at hw
  | [a], huw =>
    injection huw with h1 h2
    subst h1
    right; right
    refine ⟨List.singleton_sublist.1 hu, ?_⟩
    have hw2 : w = [q] := by simpa using h2.symm
    rw [hw2] at hw
    exact List.singleton_sublist.1 hw
  | a :: b :: u2, huw =>
    injection huw with h1 h3
    injection h3 with h2 h4
    subst h1
    subst h2
    left
    have hu2 : u2 = [] := by
      cases u2 with
      | nil => rfl
      | cons c u3 => simp at h4
    rw [hu2] at hu
    exact hu

/-- Helper: correctness of the combine step.  Given the two recursive
results (y-sorted permutations of the halves with their exact brute-force
minima), an x-monotone split at `midX`, merging and strip-scanning
computes the exact brute-force minimum of the whole segment. -/
theorem cpCombine_correct (s1 s2 l1 l2 : List Point) (midX : ℚ)
    (hp1 : s1.Perm l1) (hp2 : s2.Perm l2)
    (hs1 : s1.Pairwise (fun a b => a.y ≤ b.y))
    (hs2 : s2.Pairwise (fun a b => a.y ≤ b.y))
    (hA : ∀ p ∈ l1, p.x ≤ midX) (hB : ∀ q ∈ l2, midX ≤ q.x) :
    (cpCombine (s1, bruteMinSq l1) (s2, bruteMinSq l2) midX).1.Perm (l1 ++ l2) ∧
    (cpCombine (s1, bruteMinSq l1) (s2, bruteMinSq l2) midX).1.Pairwise
      (fun a b => a.y ≤ b.y) ∧
    (cpCombine (s1, bruteMinSq l1) (s2, bruteMinSq l2) midX).2 =
      bruteMinSq (l1 ++ l2) := by
  have hmp : (mergeY s1 s2).Perm (l1 ++ l2) := (mergeY_perm s1 s2).trans (hp1.append hp2)
  have hms : (mergeY s1 s2).Pairwise (fun a b => a.y ≤ b.y) := mergeY_pairwise s1 s2 hs1 hs2
  refine ⟨hmp, hms, ?_⟩
  have hval : (cpCombine (s1, bruteMinSq l1) (s2, bruteMinSq l2) midX).2 =
      stripOuter (min (bruteMinSq l1) (bruteMinSq l2))
        ((mergeY s1 s2).filter (fun r => ltSqrt |r.x - midX|
          (min (bruteMinSq l1) (bruteMinSq l2))))
        (min (bruteMinSq l1) (bruteMinSq l2)) := rfl
  rw [hval]
  set d := min (bruteMinSq l1) (bruteMinSq l2) with hd
  set strip := (mergeY s1 s2).filter (fun r => ltSqrt |r.x - midX| d) with hstripdef
  have hss : strip.Pairwise (fun a b => a.y ≤ b.y) := hms.filter _
  have hstripsub : strip.Sublist (mergeY s1 s2) := List.filter_sublist _
  apply le_antisymm
  · rcases bruteMinSq_cases (l1 ++ l2) with hT | ⟨p, q, hpq, heq⟩
    · rw [hT]; exact le_top
    · rw [heq]
      rcases pair_sublist_append hpq with hc1 | hc2 | ⟨hpl1, hql2⟩
      · exact le_trans (stripOuter_le_acc _ _ _)
          (le_trans (min_le_left _ _) (bruteMinSq_le_pair l1 p q hc1))
      · exact le_trans (stripOuter_le_acc _ _ _)
          (le_trans (min_le_right _ _) (bruteMinSq_le_pair l2 p q hc2))
      · by_cases hdv : d ≤ ↑(distSq p q)
        · exact le_trans (stripOuter_le_acc _ _ _) hdv
        · have hvd : (↑(distSq p q) : DSq) < d := not_le.1 hdv
          have hxp : p.x ≤ midX := hA p hpl1
          have hxq : midX ≤ q.x := hB q hql2
          have hfp : ltSqrt |p.x - midX| d = true := by
            refine ltSqrt_of_lt ?_ hvd
            rw [abs_mul_abs_self]
            calc (p.x - midX) * (p.x - midX) ≤ (p.x - q.x) * (p.x - q.x) := by
                  nlinarith [mul_nonneg (by linarith : (0:ℚ) ≤ midX - p.x)
                    (by linarith : (0:ℚ) ≤ q.x - midX),
                    mul_self_nonneg (q.x - midX)]
              _ ≤ distSq p q := sq_dx_le_distSq p q
          have hfq : ltSqrt |q.x - midX| d = true := by
            refine ltSqrt_of_lt ?_ hvd
            rw [abs_mul_abs_self]
            calc (q.x - midX) * (q.x - midX) ≤ (p.x - q.x) * (p.x - q.x) := by
                  nlinarith [mul_nonneg (by linarith : (0:ℚ) ≤ midX - p.x)
                    (by linarith : (0:ℚ) ≤ q.x - midX),
                    mul_self_nonneg (midX - p.x)]
              _ ≤ distSq p q := sq_dx_le_distSq p q
          have hsub12 : ([p, q]).Sublist (l1 ++ l2) := by
            have := (List.singleton_sublist.2 hpl1).append (List.singleton_sublist.2 hql2)
            simpa using this
          rcases pair_sublist_of_perm hmp.symm hsub12 with hsm | hsm
          · have hfilter : ([p, q]).Sublist strip := by
              have h5 := hsm.filter (fun r => ltSqrt |r.x - midX| d)
              simpa [List.filter, hfp, hfq] using h5
            have hcond : ltSqrt (q.y - p.y) d = true := by
              refine ltSqrt_of_lt ?_ hvd
              have he : (q.y - p.y) * (q.y - p.y) = (p.y - q.y) * (p.y - q.y) := by ring
              rw [he]
              exact sq_dy_le_distSq p q
            exact stripOuter_reach d strip d p q hfilter hss hcond
          · have hfilter : ([q, p]).Sublist strip := by
              have h5 := hsm.filter (fun r => ltSqrt |r.x - midX| d)
              simpa [List.filter, hfp, hfq] using h5
            have hcond : ltSqrt (p.y - q.y) d = true := by
              refine ltSqrt_of_lt ?_ hvd
              exact sq_dy_le_distSq p q
            have h6 := stripOuter_reach d strip d q p hfilter hss hcond
            rwa [distSq_comm q p] at h6
  · refine stripOuter_ge d _ strip d ?_ ?_
    · intro a b hab
      have habm : ([a, b]).Sublist (mergeY s1 s2) := hab.trans hstripsub
      rcases pair_sublist_of_perm hmp habm with hs | hs
      · exact bruteMinSq_le_pair _ a b hs
      · rw [distSq_comm]
        exact bruteMinSq_le_pair _ b a hs
    · exact le_min (bruteMinSq_anti (List.sublist_append_left l1 l2))
        (bruteMinSq_anti (List.sublist_append_right l1 l2))

/-- Helper: the base branch of the closest-pair recursion. -/
theorem closestPairRec_base (fuel : Nat) (l : List Point) (h : l.length ≤ 4) :
    closestPairRec fuel l = (sortPts ltY l, bruteMinSq l) := by
  unfold closestPairRec
  rw [if_pos h]

/-- Helper: the splitting branch of the closest-pair recursion. -/
theorem closestPairRec_step (n : Nat) (l : List Point) (h : ¬ l.length ≤ 4) :
    closestPairRec (n + 1) l =
      cpCombine (closestPairRec n (l.take ((l.length - 1) / 2 + 1)))
        (closestPairRec n (l.drop ((l.length - 1) / 2 + 1)))
        (l.getD ((l.length - 1) / 2 + 1 - 1) ⟨0, 0⟩).x := by
  conv_lhs => rw [closestPairRec]
  rw [if_neg h]

/-- Helper: comparator facts for the y-order. -/
theorem ltY_true {a b : Point} (h : ltY a b = true) : a.y ≤ b.y := by
  simp only [ltY, decide_eq_true_eq] at h
  exact le_of_lt h

/-- Helper: comparator facts for the y-order, negative case. -/
theorem ltY_false {a b : Point} (h : ltY a b = false) : b.y ≤ a.y := by
  simp only [ltY, decide_eq_false_iff_not, not_lt] at h
  exact h

/-- Helper: comparator facts for the x-order. -/
theorem ltX_true {a b : Point} (h : ltX a b = true) : a.x ≤ b.x := by
  simp only [ltX, decide_eq_true_eq] at h
  exact le_of_lt h

/-- Helper: comparator facts for the x-order, negative case. -/
theorem ltX_false {a b : Point} (h : ltX a b = false) : b.x ≤ a.x := by
  simp only [ltX, decide_eq_false_iff_not, not_lt] at h
  exact h

/-- Helper: on an x-sorted list, everything in `take k` is left of the
element at position `k-1`, and everything in `drop k` is right of it. -/
theorem xsorted_take_drop (l : List Point) (k : Nat) (hk1 : 1 ≤ k) (hk2 : k ≤ l.length)
    (hx : l.Pairwise (fun a b => a.x ≤ b.x)) :
    (∀ p ∈ l.take k, p.x ≤ (l.getD (k - 1) ⟨0, 0⟩).x) ∧
    (∀ q ∈ l.drop k, (l.getD (k - 1) ⟨0, 0⟩).x ≤ q.x) := by
  have hk3 : k - 1 < l.length := by omega
  have hgd : l.getD (k - 1) ⟨0, 0⟩ = l[k - 1] := List.getD_eq_getElem l _ hk3
  have h5 : k - 1 < (l.take k).length := by
    rw [List.length_take]
    omega
  have hmemtake : l[k - 1] ∈ l.take k := by
    have h6 : (l.take k)[k - 1] = l[k - 1] := List.getElem_take l
    rw [← h6]
    exact List.getElem_mem h5
  have htake : (l.take k).Pairwise (fun a b => a.x ≤ b.x) :=
    hx.sublist (List.take_sublist k l)
  constructor
  · intro p hp
    have htk : l.take k = l.take (k - 1) ++ [l[k - 1]] := by
      have h7 : k = (k - 1) + 1 := by omega
      conv_lhs => rw [h7, List.take_succ]
      simp [List.getElem?_eq_getElem hk3]
    rw [htk] at hp
    rcases List.mem_append.1 hp with hp1 | hp2
    · rw [htk] at htake
      have h9 := (List.pairwise_append.1 htake).2.2 p hp1 (l[k - 1]) (by simp)
      rw [hgd]
      exact h9
    · rw [hgd]
      have hp3 : p = l[k - 1] := by simpa using hp2
      rw [hp3]
  · intro q hq
    have hx2 : (l.take k ++ l.drop k).Pairwise (fun a b => a.x ≤ b.x) := by
      rw [List.take_append_drop]
      exact hx
    rw [hgd]
    exact (List.pairwise_append.1 hx2).2.2 (l[k - 1]) hmemtake q hq

/-- Helper: full correctness of the closest-pair recursion on an
x-sorted segment, by induction on the fuel: the returned list is a
y-sorted permutation of the segment and the returned value is the exact
brute-force minimum squared pair distance. -/
theorem closestPairRec_correct :
    ∀ (fuel : Nat) (l : List Point), l.length ≤ fuel + 4 →
      l.Pairwise (fun a b => a.x ≤ b.x) →
      (closestPairRec fuel l).1.Perm l ∧
      (closestPairRec fuel l).1.Pairwise (fun a b => a.y ≤ b.y) ∧
      (closestPairRec fuel l).2 = bruteMinSq l := by
  intro fuel
  induction fuel with
  | zero =>
    intro l hlen hx
    have h4 : l.length ≤ 4 := by omega
    rw [closestPairRec_base 0 l h4]
    exact ⟨sortPts_perm ltY l,
      sortPts_pairwise (fun p => p.y) ltY (fun a b => ltY_true) (fun a b => ltY_false) l,
      rfl⟩
  | succ n ih =>
    intro l hlen hx
    by_cases h4 : l.length ≤ 4
    · rw [closestPairRec_base _ l h4]
      exact ⟨sortPts_perm ltY l,
        sortPts_pairwise (fun p => p.y) ltY (fun a b => ltY_true) (fun a b => ltY_false) l,
        rfl⟩
    · have hstep := closestPairRec_step n l h4
      set k := (l.length - 1) / 2 + 1 with hk
      have hlen5 : 5 ≤ l.length := by omega
      have hk1 : 1 ≤ k := by omega
      have hk2 : k ≤ l.length := by omega
      have hlen1 : (l.take k).length ≤ n + 4 := by
        rw [List.length_take]
        omega
      have hlen2 : (l.drop k).length ≤ n + 4 := by
        rw [List.length_drop]
        omega
      have hx1 : (l.take k).Pairwise (fun a b => a.x ≤ b.x) :=
        hx.sublist (List.take_sublist k l)
      have hx2 : (l.drop k).Pairwise (fun a b => a.x ≤ b.x) :=
        hx.sublist (List.drop_sublist k l)
      obtain ⟨hq1, hw1, hv1⟩ := ih (l.take k) hlen1 hx1
      obtain ⟨hq2, hw2, hv2⟩ := ih (l.drop k) hlen2 hx2
      obtain ⟨hA, hB⟩ := xsorted_take_drop l k hk1 hk2 hx
      have he1 : closestPairRec n (l.take k) =
          ((closestPairRec n (l.take k)).1, bruteMinSq (l.take k)) := by
        rw [← hv1]
      have he2 : closestPairRec n (l.drop k) =
          ((closestPairRec n (l.drop k)).1, bruteMinSq (l.drop k)) := by
        rw [← hv2]
      have hcc := cpCombine_correct (closestPairRec n (l.take k)).1
        (closestPairRec n (l.drop k)).1 (l.take k) (l.drop k)
        (l.getD (k - 1) ⟨0, 0⟩).x hq1 hq2 hw1 hw2 hA hB
      rw [List.take_append_drop] at hcc
      rw [hstep, he1, he2]
      exact hcc

/-- C5: for every point set with at least 2 points, the divide-and-
conquer closest pair computation returns exactly the brute-force minimum
over all pairs of distinct positions.  Stated on squared distances: the
C++ `closestPair` returns the square root of each side, so this equality
is equivalent to the claimed one. -/
theorem c5_closestPair_eq_bruteforce (pts : List Point) (_h2 : 2 ≤ pts.length) :
    closestPairSq pts = bruteMinSq pts := by
  unfold closestPairSq
  have hx : (sortPts ltX pts).Pairwise (fun a b => a.x ≤ b.x) :=
    sortPts_pairwise (fun p => p.x) ltX (fun a b => ltX_true) (fun a b => ltX_false) pts
  have hlen : (sortPts ltX pts).length ≤ pts.length + 4 := by
    rw [(sortPts_perm ltX pts).length_eq]
    omega
  obtain ⟨-, -, hval⟩ := closestPairRec_correct pts.length (sortPts ltX pts) hlen hx
  rw [hval]
  exact bruteMinSq_perm (sortPts_perm ltX pts)

/-- C5 witness: the theorem applied to a concrete two-point input (both
sides evaluate to the squared distance 25). -/
theorem c5_closestPair_eq_bruteforce_witness :
    closestPairSq [⟨0, 0⟩, ⟨3, 4⟩] = bruteMinSq [⟨0, 0⟩, ⟨3, 4⟩] ∧
    closestPairSq [⟨0, 0⟩, ⟨3, 4⟩] = ((25 : ℚ) : DSq) :=
  ⟨c5_closestPair_eq_bruteforce [⟨0, 0⟩, ⟨3, 4⟩] (by decide),
   by with_unfolding_all decide⟩

end Geometry
